import Mathlib

/-!
Verification of the CREN core from `ren_continuous.py`: the stability
projector `update_model_param`, the implicit equilibrium solver and the
continuous forward pass `forward`, the output map `output`, the
least-squares state initialization `set_y_init`, and the trajectory
simulator `forward_trajectory`.

Matrices are real matrices indexed by `Fin`; `torch.nn.functional.linear`
is embedded with its implicit transpose (`F.linear(a, w) = a @ wᵀ`), and
the `(n+q)×(n+q)` certificate seed `X` is indexed by `Fin n ⊕ Fin q`,
matching the row/column split at `n` performed by `torch.split`.
-/

namespace CREN

open Matrix

noncomputable section

/-! ### Definitions: the embedded data model and operations -/

/-- Embedding of `torch.nn.functional.linear`: `F.linear(input, weight)`
computes `input @ weight.T`. -/
def Flinear {ι κ μ : Type*} [Fintype κ] (input : Matrix ι κ ℝ)
    (weight : Matrix μ κ ℝ) : Matrix ι μ ℝ :=
  input * weightᵀ

/-- Embedding of `torch.tril(M, -1)`: keep only the entries strictly below
the main diagonal. -/
def trilStrict {k : ℕ} (M : Matrix (Fin k) (Fin k) ℝ) : Matrix (Fin k) (Fin k) ℝ :=
  Matrix.of fun i j => if (j : ℕ) < (i : ℕ) then M i j else 0

/-- The trainable parameters read by `CREN.update_model_param`. -/
structure RENParams (n q : ℕ) where
  Pstar : Matrix (Fin n) (Fin n) ℝ
  Chi : Matrix (Fin n) (Fin q) ℝ
  X : Matrix (Fin n ⊕ Fin q) (Fin n ⊕ Fin q) ℝ
  Y1 : Matrix (Fin n) (Fin n) ℝ

/-- The derived non-trainable matrices written by `CREN.update_model_param`. -/
structure DynMats (n q : ℕ) where
  P : Matrix (Fin n) (Fin n) ℝ
  A : Matrix (Fin n) (Fin n) ℝ
  D11 : Matrix (Fin q) (Fin q) ℝ
  C1 : Matrix (Fin q) (Fin n) ℝ
  B1 : Matrix (Fin n) (Fin q) ℝ

/-- Line 103: `P = 0.5 * F.linear(Pstar, Pstar) + epsilon * eye(dim_x)`. -/
def computeP {n : ℕ} (Pstar : Matrix (Fin n) (Fin n) ℝ) (epsilon : ℝ) :
    Matrix (Fin n) (Fin n) ℝ :=
  (1/2 : ℝ) • Flinear Pstar Pstar + epsilon • 1

/-- Line 106: `H = F.linear(X, X) + epsilon * eye(dim_x + dim_v)`. -/
def computeH {n q : ℕ} (X : Matrix (Fin n ⊕ Fin q) (Fin n ⊕ Fin q) ℝ) (epsilon : ℝ) :
    Matrix (Fin n ⊕ Fin q) (Fin n ⊕ Fin q) ℝ :=
  Flinear X X + epsilon • 1

/-- Line 113: `Y = -0.5 * (H1 + contraction_rate_lb * P + Y1 - Y1.T)`. -/
def computeY {n q : ℕ} (pr : RENParams n q) (epsilon crate : ℝ) :
    Matrix (Fin n) (Fin n) ℝ :=
  (-(1/2) : ℝ) •
    ((computeH pr.X epsilon).toBlocks₁₁ + crate • computeP pr.Pstar epsilon + pr.Y1 - pr.Y1ᵀ)

/-- Line 114: `Lambda = 0.5 * torch.diag_embed(torch.diagonal(H4))`. -/
def computeLambda {n q : ℕ} (pr : RENParams n q) (epsilon : ℝ) :
    Matrix (Fin q) (Fin q) ℝ :=
  (1/2 : ℝ) • Matrix.diagonal (fun i => (computeH pr.X epsilon).toBlocks₂₂ i i)

/-- Body of `CREN.update_model_param` (lines 103–121).  `F.linear`'s
implicit transpose is kept exactly as written in the source. -/
def updateModelParam {n q : ℕ} (pr : RENParams n q) (epsilon crate : ℝ) : DynMats n q :=
  { P := computeP pr.Pstar epsilon
    A := Flinear (computeP pr.Pstar epsilon)⁻¹ (computeY pr epsilon crate)ᵀ
    D11 := -Flinear (computeLambda pr epsilon)⁻¹ (trilStrict ((computeH pr.X epsilon).toBlocks₂₂))ᵀ
    C1 := Flinear (computeLambda pr epsilon)⁻¹ pr.Chi
    B1 := Flinear (computeP pr.Pstar epsilon)⁻¹ (-(computeH pr.X epsilon).toBlocks₁₂ - pr.Chi)ᵀ }

/-- Step-6 formula for `A` exactly as the spec writes it, `A = P⁻¹ @ Yᵀ`,
kept as a separate definition so it can be compared against the `A`
computed by the source (which applies `F.linear`'s implicit transpose). -/
def specA {n : ℕ} (P Y : Matrix (Fin n) (Fin n) ℝ) : Matrix (Fin n) (Fin n) ℝ :=
  P⁻¹ * Yᵀ

/-- The tanh activation (`self.act = nn.Tanh()`, line 56). -/
def act : ℝ → ℝ := Real.tanh

/-- The matrices and bias vectors read by `CREN.forward`. -/
structure FwdMats (n m q : ℕ) where
  A : Matrix (Fin n) (Fin n) ℝ
  B1 : Matrix (Fin n) (Fin q) ℝ
  B2 : Matrix (Fin n) (Fin m) ℝ
  C1 : Matrix (Fin q) (Fin n) ℝ
  D11 : Matrix (Fin q) (Fin q) ℝ
  D12 : Matrix (Fin q) (Fin m) ℝ
  bx : Fin n → ℝ
  bv : Fin q → ℝ

/-- The feedback loop of `CREN.forward` (lines 136–149) after its first `k`
column updates, acting on a batch `x` of states (one state per row) and a
shared input `u`.  Row 0 of `w` (lines 140–142) is computed without a `D11`
term; rows `i ≥ 1` (lines 144–149) add `F.linear(w, D11[i,:])`.  Each step
writes `tanh(v)` into column `i` of `w` through the basis column `vec`. -/
def bSolveWGo {bs n m q : ℕ} (M : FwdMats n m q) (x : Matrix (Fin bs) (Fin n) ℝ)
    (u : Fin m → ℝ) : ℕ → Matrix (Fin bs) (Fin q) ℝ
  | 0 => 0
  | k + 1 =>
    let w := bSolveWGo M x u k
    if h : k < q then
      w + Matrix.of fun r j =>
        if j = (⟨k, h⟩ : Fin q) then
          act (M.C1 ⟨k, h⟩ ⬝ᵥ x r
            + (if k = 0 then 0 else M.D11 ⟨k, h⟩ ⬝ᵥ w r)
            + M.bv ⟨k, h⟩ + M.D12 ⟨k, h⟩ ⬝ᵥ u)
        else 0
    else w

/-- The completed feedback matrix `w` of `CREN.forward` (all `dim_v`
column updates performed). -/
def bSolveW {bs n m q : ℕ} (M : FwdMats n m q) (x : Matrix (Fin bs) (Fin n) ℝ)
    (u : Fin m → ℝ) : Matrix (Fin bs) (Fin q) ℝ :=
  bSolveWGo M x u q

/-- Body of `CREN.forward` (lines 123–155) for a batch of states.  Line 133
hardcodes the external input to zeros
(`u = torch.zeros((1, 2))  # TODO: Remove this IMMEDIATELY!`), modelled as
the zero input vector: no caller-supplied input ever reaches this
computation.  The returned value is the time derivative
`x_dot = F.linear(x, A) + F.linear(w, B1) + F.linear(ones, bx) + F.linear(u, B2)`. -/
def cforward {bs n m q : ℕ} (M : FwdMats n m q) (x : Matrix (Fin bs) (Fin n) ℝ) :
    Matrix (Fin bs) (Fin n) ℝ :=
  let u : Fin m → ℝ := 0
  let w := bSolveW M x u
  Flinear x M.A + Flinear w M.B1
    + Matrix.of (fun _ j => M.bx j)
    + Matrix.of (fun _ j => M.B2 j ⬝ᵥ u)

/-- DynamicsStep as the spec states it (§4.3, continuous variant):
`xdot = A@x + B1@w + bx + B2@u` with `w` the implicit-solver output for the
supplied input `u`.  Written from the spec's words, for comparison with
`cforward`. -/
def specContinuousStep {n m q : ℕ} (M : FwdMats n m q) (x : Fin n → ℝ)
    (u : Fin m → ℝ) : Fin n → ℝ :=
  M.A *ᵥ x + M.B1 *ᵥ (bSolveW M (Matrix.of fun _ : Fin 1 => x) u 0) + M.bx + M.B2 *ᵥ u

/-- Body of `CREN.output` (lines 157–165): `yt = F.linear(xi, C2)`. -/
def outputMap {bs p n : ℕ} (C2 : Matrix (Fin p) (Fin n) ℝ)
    (x : Matrix (Fin bs) (Fin n) ℝ) : Matrix (Fin bs) (Fin p) ℝ :=
  Flinear x C2

/-- The single-row batch extracted from row `r` of a batch of states. -/
def rowOf {bs n : ℕ} (x : Matrix (Fin bs) (Fin n) ℝ) (r : Fin bs) :
    Matrix (Fin 1) (Fin n) ℝ :=
  Matrix.of fun _ j => x r j

/-- Modelled from the spec: `forward_trajectory` (lines 209–214) delegates
time-stepping to torchdiffeq's `odeint`, an external collaborator that the
spec fixes only at the boundary "given a derivative function, a state, and
a time grid, produce the state trajectory" over a uniform grid of `horizon`
points (§6).  It is modelled as a deterministic explicit one-step scheme of
step size `h` applied to the supplied derivative function `cforward`;
adaptive sub-stepping is internal to the external solver and outside the
boundary. -/
def simTraj {bs n m q : ℕ} (M : FwdMats n m q) (h : ℝ)
    (x0 : Matrix (Fin bs) (Fin n) ℝ) : ℕ → Matrix (Fin bs) (Fin n) ℝ
  | 0 => x0
  | k + 1 => simTraj M h x0 k + h • cforward M (simTraj M h x0 k)

/-- Embedding of the reshape on line 212,
`out.reshape(out.shape[1], out.shape[0], out.shape[3])`
(marked `# TODO: Fix the reshape problem and dimensions in CREN`).  The
pre-reshape tensor of output samples has shape `(T, bs, 1, p)` — time-major,
one output row per batch element per grid point; the singleton axis does not
affect the row-major buffer and is dropped from the model.  `reshape` keeps
the row-major buffer and reads it with the new `(bs, T, p)` strides: entry
`(r, k, j)` of the result is buffer position `r*(T*p) + k*p + j`, which in
the time-major layout is sample
`(t, e, jj) = (pos / (bs*p), (pos % (bs*p)) / p, pos % p)`. -/
def reshapeTraj {bs T p : ℕ} (out : Fin T → Fin bs → Fin p → ℝ)
    (r : Fin bs) (k : Fin T) (j : Fin p) : ℝ :=
  out
    ⟨(((r : ℕ) * T + (k : ℕ)) * p + (j : ℕ)) / (bs * p), by
      refine (Nat.div_lt_iff_lt_mul (Nat.mul_pos r.pos j.pos)).mpr ?_
      have h1 : (r : ℕ) * T + (k : ℕ) + 1 ≤ bs * T := by
        have hr : (r : ℕ) + 1 ≤ bs := r.isLt
        have hk : (k : ℕ) + 1 ≤ T := k.isLt
        calc (r : ℕ) * T + (k : ℕ) + 1 ≤ (r : ℕ) * T + T := by omega
        _ = ((r : ℕ) + 1) * T := by ring
        _ ≤ bs * T := Nat.mul_le_mul_right T hr
      calc ((r : ℕ) * T + (k : ℕ)) * p + (j : ℕ)
          < ((r : ℕ) * T + (k : ℕ)) * p + p := by omega
      _ = ((r : ℕ) * T + (k : ℕ) + 1) * p := by ring
      _ ≤ (bs * T) * p := Nat.mul_le_mul_right p h1
      _ = T * (bs * p) := by ring⟩
    ⟨(((r : ℕ) * T + (k : ℕ)) * p + (j : ℕ)) % (bs * p) / p, by
      refine (Nat.div_lt_iff_lt_mul j.pos).mpr ?_
      exact Nat.mod_lt _ (Nat.mul_pos r.pos j.pos)⟩
    ⟨(((r : ℕ) * T + (k : ℕ)) * p + (j : ℕ)) % p, Nat.mod_lt _ j.pos⟩

/-- Body of `forward_trajectory` (lines 203–214) from the initial state on:
integrate the derivative function over the `horizon`-point grid (the
integrator modelled by `simTraj`), apply the output map to every state
sample, then apply the line-212 reshape to the resulting time-major
buffer. -/
def forwardTrajOut {bs n m q p : ℕ} (M : FwdMats n m q)
    (C2 : Matrix (Fin p) (Fin n) ℝ) (h : ℝ) (x0 : Matrix (Fin bs) (Fin n) ℝ)
    (T : ℕ) : Fin bs → Fin T → Fin p → ℝ :=
  reshapeTraj fun k r j => outputMap C2 (simTraj M h x0 (k : ℕ)) r j

/-- Modelled from the spec: `torch.linalg.lstsq` (line 179) is an external
LAPACK-backed routine absent from the repository.  For full-row-rank `C2`
the least-squares solution of `C2 @ x0 = y0` that it returns is the
minimum-norm one, which has the closed form `x0 = C2ᵀ (C2 C2ᵀ)⁻¹ y0`
modelled here; `set_y_init` stores this solution as the initial state. -/
def lstsqMinNorm {p n : ℕ} (C2 : Matrix (Fin p) (Fin n) ℝ) (y : Fin p → ℝ) :
    Fin n → ℝ :=
  C2ᵀ *ᵥ ((C2 * C2ᵀ)⁻¹ *ᵥ y)

/-- The full mutable state of a `CREN` module: trainable parameters,
internal state `x`, configuration fields, and the cached derived matrices.
The code's `self.by` bias is named `b_y` because `by` is reserved in Lean. -/
structure CRENState (dimIn dimOut dimX dimV bs : ℕ) where
  Pstar : Matrix (Fin dimX) (Fin dimX) ℝ
  Chi : Matrix (Fin dimX) (Fin dimV) ℝ
  X : Matrix (Fin dimX ⊕ Fin dimV) (Fin dimX ⊕ Fin dimV) ℝ
  Y1 : Matrix (Fin dimX) (Fin dimX) ℝ
  B2 : Matrix (Fin dimX) (Fin dimIn) ℝ
  D12 : Matrix (Fin dimV) (Fin dimIn) ℝ
  C2 : Matrix (Fin dimOut) (Fin dimX) ℝ
  D21 : Matrix (Fin dimOut) (Fin dimV) ℝ
  D22 : Matrix (Fin dimOut) (Fin dimIn) ℝ
  bx : Fin dimX → ℝ
  bv : Fin dimV → ℝ
  b_y : Fin dimOut → ℝ
  x : Matrix (Fin bs) (Fin dimX) ℝ
  epsilon : ℝ
  contraction_rate_lb : ℝ
  weight_init_std : ℝ
  linear_output : Bool
  add_bias : Bool
  horizon : Option ℕ
  A : Matrix (Fin dimX) (Fin dimX) ℝ
  D11 : Matrix (Fin dimV) (Fin dimV) ℝ
  C1 : Matrix (Fin dimV) (Fin dimX) ℝ
  B1 : Matrix (Fin dimX) (Fin dimV) ℝ
  P : Matrix (Fin dimX) (Fin dimX) ℝ

/-- `CREN.update_model_param` as a state transformer: it assigns the five
derived matrices `P`, `A`, `D11`, `C1`, `B1` (lines 104, 116–121) and
touches nothing else. -/
def updateModelParamState {dimIn dimOut dimX dimV bs : ℕ}
    (s : CRENState dimIn dimOut dimX dimV bs) : CRENState dimIn dimOut dimX dimV bs :=
  let dm := updateModelParam ⟨s.Pstar, s.Chi, s.X, s.Y1⟩ s.epsilon s.contraction_rate_lb
  { s with P := dm.P, A := dm.A, D11 := dm.D11, C1 := dm.C1, B1 := dm.B1 }

/-- Concrete all-zero parameters at `n = q = 1`, used to instantiate
hypothesis-bearing theorems. -/
def prOne : RENParams 1 1 := ⟨0, 0, 0, 0⟩

/-- Concrete parameters at `n = 2`, `q = 1` with an asymmetric `Y1`,
separating the code's `A = P⁻¹ Y` from the spec's `A = P⁻¹ Yᵀ`. -/
def prTwo : RENParams 2 1 := ⟨0, 0, 0, !![0, 1; 0, 0]⟩

/-- Concrete all-zero forward matrices at `n = m = 1`, `q = 2`. -/
def fwdZero : FwdMats 1 1 2 := ⟨0, 0, 0, 0, 0, 0, 0, 0⟩

/-- Concrete forward matrices at `n = m = q = 1` whose only nonzero matrix
is `B2 = I`: any dependence of the derivative on the external input would
show up through `B2 @ u`. -/
def fwdInputTest : FwdMats 1 1 1 := ⟨0, 0, 1, 0, 0, 0, 0, 0⟩

/-- Concrete batch of four distinct scalar initial states `0, 1, 2, 3`. -/
def x0four : Matrix (Fin 4) (Fin 1) ℝ := !![0; 1; 2; 3]

/-! ### Helper lemmas on the positive-definite quadratic construction -/

/-- A real matrix times its own transpose is positive semidefinite. -/
lemma posSemidef_mul_transpose {a b : ℕ} (A : Matrix (Fin a) (Fin b) ℝ) :
    (A * Aᵀ).PosSemidef := by
  have h := Matrix.posSemidef_self_mul_conjTranspose A
  rwa [Matrix.conjTranspose_eq_transpose_of_trivial] at h

/-- Scaling a positive semidefinite real matrix by a nonnegative scalar
preserves positive semidefiniteness. -/
lemma posSemidef_smul {k : ℕ} {M : Matrix (Fin k) (Fin k) ℝ} (hM : M.PosSemidef)
    {c : ℝ} (hc : 0 ≤ c) : (c • M).PosSemidef := by
  refine ⟨?_, fun x => ?_⟩
  · have h1 := hM.1
    unfold Matrix.IsHermitian at h1 ⊢
    rw [Matrix.conjTranspose_smul, h1, star_trivial]
  · rw [Matrix.smul_mulVec_assoc, Matrix.dotProduct_smul, smul_eq_mul]
    exact mul_nonneg hc (hM.2 x)

/-- A positive multiple of the identity is positive definite. -/
lemma posDef_smul_one {k : ℕ} {epsilon : ℝ} (he : 0 < epsilon) :
    (epsilon • (1 : Matrix (Fin k) (Fin k) ℝ)).PosDef := by
  have hdiag : epsilon • (1 : Matrix (Fin k) (Fin k) ℝ)
      = Matrix.diagonal (fun _ => epsilon) := by
    ext i j
    by_cases h : i = j <;>
      simp [h, Matrix.one_apply, Matrix.diagonal_apply, Matrix.smul_apply]
  rw [hdiag]
  exact Matrix.PosDef.diagonal (fun _ => he)

/-- The quadratic construction `c • (A * Aᵀ) + epsilon • 1` is positive
definite for `c ≥ 0` and `epsilon > 0`. -/
lemma posDef_quadConstruction {k : ℕ} (A : Matrix (Fin k) (Fin k) ℝ) {c epsilon : ℝ}
    (hc : 0 ≤ c) (he : 0 < epsilon) :
    (c • (A * Aᵀ) + epsilon • (1 : Matrix (Fin k) (Fin k) ℝ)).PosDef :=
  Matrix.PosDef.posSemidef_add (posSemidef_smul (posSemidef_mul_transpose A) hc)
    (posDef_smul_one he)

/-- For a real symmetric matrix `M`, positive semidefiniteness of
`M - c • 1` bounds every eigenvalue of `M` below by `c`. -/
lemma eigenvalues_ge_of_sub_smul_one_posSemidef {k : ℕ} {M : Matrix (Fin k) (Fin k) ℝ}
    (hM : M.IsHermitian) {c : ℝ}
    (h : (M - c • (1 : Matrix (Fin k) (Fin k) ℝ)).PosSemidef) (i : Fin k) :
    c ≤ hM.eigenvalues i := by
  set v : Fin k → ℝ := ⇑(hM.eigenvectorBasis i) with hv
  have hv0 : v ≠ 0 := hM.eigenvectorBasis.orthonormal.ne_zero i
  have hMv : M *ᵥ v = hM.eigenvalues i • v := hM.mulVec_eigenvectorBasis i
  have h2 := h.2 v
  rw [Matrix.sub_mulVec, Matrix.dotProduct_sub, hMv, Matrix.smul_mulVec_assoc,
    Matrix.one_mulVec, Matrix.dotProduct_smul, Matrix.dotProduct_smul] at h2
  have hpos : 0 < Matrix.dotProduct (star v) v :=
    Matrix.dotProduct_star_self_pos_iff.mpr hv0
  have h3 : 0 ≤ (hM.eigenvalues i - c) * Matrix.dotProduct (star v) v := by
    rw [sub_mul]
    simpa [smul_eq_mul] using h2
  nlinarith

/-- The `P` computed on line 103 equals the plain quadratic form
`0.5 * Pstar @ Pstarᵀ + epsilon * I`. -/
lemma computeP_eq {n : ℕ} (Pstar : Matrix (Fin n) (Fin n) ℝ) (epsilon : ℝ) :
    computeP Pstar epsilon = (1/2 : ℝ) • (Pstar * Pstarᵀ) + epsilon • 1 := rfl

/-- `P` is positive definite whenever `epsilon > 0`. -/
lemma computeP_posDef {n : ℕ} (Pstar : Matrix (Fin n) (Fin n) ℝ) {epsilon : ℝ}
    (he : 0 < epsilon) : (computeP Pstar epsilon).PosDef := by
  rw [computeP_eq]
  exact posDef_quadConstruction Pstar (by norm_num) he

/-- Subtracting `epsilon • 1` from `P` leaves the positive semidefinite
quadratic part. -/
lemma computeP_sub_posSemidef {n : ℕ} (Pstar : Matrix (Fin n) (Fin n) ℝ) (epsilon : ℝ) :
    (computeP Pstar epsilon - epsilon • 1).PosSemidef := by
  have hsub : computeP Pstar epsilon - epsilon • 1 = (1/2 : ℝ) • (Pstar * Pstarᵀ) := by
    rw [computeP_eq]
    abel
  rw [hsub]
  exact posSemidef_smul (posSemidef_mul_transpose Pstar) (by norm_num)

/-- **C1.** For every `ParameterSet` and every `epsilon > 0`, the matrix `P`
computed by `update_model_param` equals `0.5 * Pstar @ Pstarᵀ + epsilon * I`,
is symmetric, and is positive definite with every eigenvalue at least
`epsilon` (equivalently, `P - epsilon • 1` is positive semidefinite). -/
theorem updateModelParam_P_spec {n q : ℕ} (pr : RENParams n q) (epsilon crate : ℝ)
    (he : 0 < epsilon) :
    (updateModelParam pr epsilon crate).P
        = (1/2 : ℝ) • (pr.Pstar * pr.Pstarᵀ) + epsilon • 1 ∧
    (updateModelParam pr epsilon crate).P.IsSymm ∧
    (updateModelParam pr epsilon crate).P.PosDef ∧
    ((updateModelParam pr epsilon crate).P - epsilon • 1).PosSemidef ∧
    ∀ (hh : (updateModelParam pr epsilon crate).P.IsHermitian) (i : Fin n),
      epsilon ≤ hh.eigenvalues i := by
  have hPd : (updateModelParam pr epsilon crate).P.PosDef := computeP_posDef pr.Pstar he
  have hSub : ((updateModelParam pr epsilon crate).P - epsilon • 1).PosSemidef :=
    computeP_sub_posSemidef pr.Pstar epsilon
  refine ⟨computeP_eq pr.Pstar epsilon, ?_, hPd, hSub, ?_⟩
  · have h1 := hPd.1
    unfold Matrix.IsHermitian at h1
    rw [Matrix.conjTranspose_eq_transpose_of_trivial] at h1
    exact h1
  · intro hh i
    exact eigenvalues_ge_of_sub_smul_one_posSemidef hh hSub i

/-- Witness for C1 at `Pstar = 0`, `epsilon = 1`. -/
theorem updateModelParam_P_spec_witness :
    (0 : ℝ) < 1 ∧
    ((updateModelParam prOne 1 0).P
        = (1/2 : ℝ) • (prOne.Pstar * prOne.Pstarᵀ) + (1 : ℝ) • 1 ∧
    (updateModelParam prOne 1 0).P.IsSymm ∧
    (updateModelParam prOne 1 0).P.PosDef ∧
    ((updateModelParam prOne 1 0).P - (1 : ℝ) • 1).PosSemidef ∧
    ∀ (hh : (updateModelParam prOne 1 0).P.IsHermitian) (i : Fin 1),
      (1 : ℝ) ≤ hh.eigenvalues i) :=
  ⟨by norm_num, updateModelParam_P_spec prOne 1 0 (by norm_num)⟩

/-! ### The diagonal scaling `Lambda` and strict lower-triangularity of `D11` -/

/-- `Lambda` is the diagonal matrix of halved diagonal entries of `H4`. -/
lemma computeLambda_eq_diagonal {n q : ℕ} (pr : RENParams n q) (epsilon : ℝ) :
    computeLambda pr epsilon
      = Matrix.diagonal (fun i => (1/2 : ℝ) * (computeH pr.X epsilon).toBlocks₂₂ i i) := by
  unfold computeLambda
  rw [← Matrix.diagonal_smul]
  congr 1

/-- Every diagonal entry of `H` is at least `epsilon`: the quadratic part
contributes a sum of squares. -/
lemma computeH_diag_ge {n q : ℕ} (X : Matrix (Fin n ⊕ Fin q) (Fin n ⊕ Fin q) ℝ)
    (epsilon : ℝ) (a : Fin n ⊕ Fin q) : epsilon ≤ computeH X epsilon a a := by
  unfold computeH Flinear
  have hsq : 0 ≤ ∑ k, X a k * Xᵀ k a := by
    refine Finset.sum_nonneg fun k _ => ?_
    rw [Matrix.transpose_apply]
    exact mul_self_nonneg _
  simp only [Matrix.add_apply, Matrix.smul_apply, Matrix.one_apply_eq, Matrix.mul_apply,
    smul_eq_mul, mul_one]
  linarith

/-- The strictly-lower-triangular extraction vanishes on and above the
diagonal. -/
lemma trilStrict_apply_of_le {k : ℕ} (M : Matrix (Fin k) (Fin k) ℝ) {i j : Fin k}
    (hij : i ≤ j) : trilStrict M i j = 0 := by
  unfold trilStrict
  simp only [Matrix.of_apply, ite_eq_right_iff]
  intro hlt
  exact absurd (lt_of_le_of_lt hij (by exact_mod_cast hlt)) (lt_irrefl i)

/-- **C2.** For every `ParameterSet` and every `epsilon > 0`, the matrix
`D11` produced by `update_model_param` is strictly lower triangular: every
entry on the main diagonal and above it is exactly zero. -/
theorem updateModelParam_D11_strictLower {n q : ℕ} (pr : RENParams n q)
    (epsilon crate : ℝ) (he : 0 < epsilon) (i j : Fin q) (hij : i ≤ j) :
    (updateModelParam pr epsilon crate).D11 i j = 0 := by
  have hD : (updateModelParam pr epsilon crate).D11
      = -((computeLambda pr epsilon)⁻¹ * trilStrict ((computeH pr.X epsilon).toBlocks₂₂)) := by
    show -Flinear (computeLambda pr epsilon)⁻¹
        (trilStrict ((computeH pr.X epsilon).toBlocks₂₂))ᵀ = _
    unfold Flinear
    rw [Matrix.transpose_transpose]
  rw [hD, computeLambda_eq_diagonal, Matrix.inv_diagonal, Matrix.neg_apply,
    Matrix.diagonal_mul, trilStrict_apply_of_le _ hij, mul_zero, neg_zero]

/-- Witness for C2 at the all-zero parameters, `epsilon = 1`, entry `(0,0)`. -/
theorem updateModelParam_D11_strictLower_witness :
    (0 : ℝ) < 1 ∧ (0 : Fin 1) ≤ 0 ∧ (updateModelParam prOne 1 0).D11 0 0 = 0 :=
  ⟨by norm_num, le_refl 0,
    updateModelParam_D11_strictLower prOne 1 0 (by norm_num) 0 0 (le_refl 0)⟩

/-! ### Well-definedness of the inversions (no failure modes) -/

/-- Diagonal entries of `Lambda` are strictly positive for `epsilon > 0`. -/
lemma computeLambda_diag_pos {n q : ℕ} (pr : RENParams n q) {epsilon : ℝ}
    (he : 0 < epsilon) (i : Fin q) : 0 < computeLambda pr epsilon i i := by
  rw [computeLambda_eq_diagonal, Matrix.diagonal_apply_eq]
  have := computeH_diag_ge pr.X epsilon (Sum.inr i)
  have hblock : (computeH pr.X epsilon).toBlocks₂₂ i i
      = computeH pr.X epsilon (Sum.inr i) (Sum.inr i) := rfl
  rw [hblock]
  linarith

/-- **C8.** For every `ParameterSet` and every `epsilon > 0`,
`update_model_param` never fails: `Lambda = 0.5 * diag(diag(H4))` has
strictly positive diagonal entries, and both `P` and `Lambda` have a unit
determinant, so the two matrix inversions are well defined.
Contrapositively, the inversions can be undefined only when
`epsilon ≤ 0`; the remaining operations of the projector are total matrix
arithmetic with no other failure mode. -/
theorem updateModelParam_no_failure {n q : ℕ} (pr : RENParams n q)
    (epsilon : ℝ) (he : 0 < epsilon) :
    (∀ i : Fin q, 0 < computeLambda pr epsilon i i) ∧
    IsUnit (computeP pr.Pstar epsilon).det ∧
    IsUnit (computeLambda pr epsilon).det := by
  refine ⟨computeLambda_diag_pos pr he, ?_, ?_⟩
  · exact (computeP_posDef pr.Pstar he).det_pos.ne'.isUnit
  · have hdet : (computeLambda pr epsilon).det
        = ∏ i, (1/2 : ℝ) * (computeH pr.X epsilon).toBlocks₂₂ i i := by
      rw [computeLambda_eq_diagonal, Matrix.det_diagonal]
    have hpos : 0 < (computeLambda pr epsilon).det := by
      rw [hdet]
      refine Finset.prod_pos fun i _ => ?_
      have h1 := computeLambda_diag_pos pr he i
      rwa [computeLambda_eq_diagonal, Matrix.diagonal_apply_eq] at h1
    exact hpos.ne'.isUnit

/-- Witness for C8 at the all-zero parameters, `epsilon = 1`. -/
theorem updateModelParam_no_failure_witness :
    (0 : ℝ) < 1 ∧
    ((∀ i : Fin 1, 0 < computeLambda prOne 1 i i) ∧
    IsUnit (computeP prOne.Pstar 1).det ∧
    IsUnit (computeLambda prOne 1).det) :=
  ⟨by norm_num, updateModelParam_no_failure prOne 1 (by norm_num)⟩

/-! ### The step-6 formulas: code versus spec -/

/-- The quadratic seed of `prTwo` gives `P = I`. -/
lemma computeP_prTwo : computeP prTwo.Pstar 1 = 1 := by
  rw [computeP_eq]
  show (1/2 : ℝ) • ((0 : Matrix (Fin 2) (Fin 2) ℝ) * (0 : Matrix (Fin 2) (Fin 2) ℝ)ᵀ)
      + (1 : ℝ) • 1 = 1
  simp

/-- The certificate seed of `prTwo` gives `H = I`. -/
lemma computeH_prTwo : computeH prTwo.X 1 = 1 := by
  unfold computeH Flinear
  show (0 : Matrix (Fin 2 ⊕ Fin 1) (Fin 2 ⊕ Fin 1) ℝ)
      * (0 : Matrix (Fin 2 ⊕ Fin 1) (Fin 2 ⊕ Fin 1) ℝ)ᵀ + (1 : ℝ) • 1 = 1
  simp

/-- At `prTwo`, `Y` is the explicit 2×2 matrix `-(1/2)(I + Y1 - Y1ᵀ)`. -/
lemma computeY_prTwo : computeY prTwo 1 0 = !![(-1/2 : ℝ), -1/2; 1/2, -1/2] := by
  unfold computeY
  rw [computeH_prTwo]
  rw [show ((1 : Matrix (Fin 2 ⊕ Fin 1) (Fin 2 ⊕ Fin 1) ℝ)).toBlocks₁₁ = 1 by
    rw [← Matrix.fromBlocks_one, Matrix.toBlocks_fromBlocks₁₁]]
  show (-(1/2) : ℝ) • ((1 : Matrix (Fin 2) (Fin 2) ℝ)
      + (0 : ℝ) • computeP prTwo.Pstar 1 + !![0, 1; 0, 0] - !![(0:ℝ), 1; 0, 0]ᵀ) = _
  ext i j
  fin_cases i <;> fin_cases j <;>
    norm_num [Matrix.one_apply, Matrix.transpose_apply, Matrix.vecHead,
      Matrix.cons_val_zero, Matrix.cons_val_one, Matrix.head_cons]

/-- In the source, `A = F.linear(P⁻¹, Yᵀ) = P⁻¹ * Y`. -/
lemma updateModelParam_A_eq {n q : ℕ} (pr : RENParams n q) (epsilon crate : ℝ) :
    (updateModelParam pr epsilon crate).A
      = (computeP pr.Pstar epsilon)⁻¹ * computeY pr epsilon crate := by
  show Flinear (computeP pr.Pstar epsilon)⁻¹ (computeY pr epsilon crate)ᵀ = _
  unfold Flinear
  rw [Matrix.transpose_transpose]

/-- **C4, counterexample.** At `prTwo` with `epsilon = 1` and zero
contraction rate, the `A` computed by `update_model_param` differs from the
spec's step-6 formula `A = P⁻¹ @ Yᵀ`: the code computes `P⁻¹ @ Y`, and at
this input the two differ in entry `(0,1)` (`-1/2` versus `1/2`). -/
theorem step6_A_transposed_counterexample :
    (updateModelParam prTwo 1 0).A ≠ specA (computeP prTwo.Pstar 1) (computeY prTwo 1 0) := by
  intro hEq
  have h01 := congrFun (congrFun hEq 0) 1
  rw [updateModelParam_A_eq] at h01
  unfold specA at h01
  rw [computeP_prTwo, computeY_prTwo, inv_one, Matrix.one_mul, Matrix.one_mul] at h01
  norm_num [Matrix.transpose_apply] at h01

/-- **C4, amended.** For every `ParameterSet` and every `epsilon`, the
derived matrices equal the step-6 formulas with `F.linear`'s transpose
accounted for: `A = P⁻¹ @ Y`, `D11 = -Λ⁻¹ @ strict_lower(H4)`,
`C1 = Λ⁻¹ @ Chiᵀ`, and `B1 = P⁻¹ @ (-H2 - Chi)`, where `Y`, `Λ`, `H2`,
`H4` are as defined in steps 2–5. -/
theorem updateModelParam_step6_formulas {n q : ℕ} (pr : RENParams n q)
    (epsilon crate : ℝ) :
    (updateModelParam pr epsilon crate).A
        = (computeP pr.Pstar epsilon)⁻¹ * computeY pr epsilon crate ∧
    (updateModelParam pr epsilon crate).D11
        = -((computeLambda pr epsilon)⁻¹
            * trilStrict ((computeH pr.X epsilon).toBlocks₂₂)) ∧
    (updateModelParam pr epsilon crate).C1
        = (computeLambda pr epsilon)⁻¹ * pr.Chiᵀ ∧
    (updateModelParam pr epsilon crate).B1
        = (computeP pr.Pstar epsilon)⁻¹
            * (-(computeH pr.X epsilon).toBlocks₁₂ - pr.Chi) := by
  refine ⟨updateModelParam_A_eq pr epsilon crate, ?_, rfl, ?_⟩
  · show -Flinear (computeLambda pr epsilon)⁻¹
        (trilStrict ((computeH pr.X epsilon).toBlocks₂₂))ᵀ = _
    unfold Flinear
    rw [Matrix.transpose_transpose]
  · show Flinear (computeP pr.Pstar epsilon)⁻¹
        (-(computeH pr.X epsilon).toBlocks₁₂ - pr.Chi)ᵀ = _
    unfold Flinear
    rw [Matrix.transpose_transpose]

/-! ### Structure of the row-by-row implicit solve -/

/-- Before step `k` reaches row `i`, entry `i` of `w` still holds its
initialization value `0`. -/
lemma bSolveWGo_apply_of_le {bs n m q : ℕ} (M : FwdMats n m q)
    (x : Matrix (Fin bs) (Fin n) ℝ) (u : Fin m → ℝ) (k : ℕ) (r : Fin bs) (i : Fin q)
    (hik : k ≤ (i : ℕ)) : bSolveWGo M x u k r i = 0 := by
  induction k with
  | zero => rfl
  | succ k ih =>
    have hk : k < q := lt_of_lt_of_le (Nat.lt_succ_of_le (Nat.le_of_succ_le hik)) i.isLt
    have hne : i ≠ (⟨k, hk⟩ : Fin q) := by
      intro hcontra
      have hik2 : (i : ℕ) = k := by rw [hcontra]
      omega
    simp only [bSolveWGo, dif_pos hk, Matrix.add_apply, Matrix.of_apply, if_neg hne,
      add_zero]
    exact ih (Nat.le_of_succ_le hik)

/-- Once row `i` has been written (after step `i + 1`), later steps leave
it unchanged. -/
lemma bSolveWGo_stable {bs n m q : ℕ} (M : FwdMats n m q)
    (x : Matrix (Fin bs) (Fin n) ℝ) (u : Fin m → ℝ) (k l : ℕ) (hkl : k ≤ l)
    (r : Fin bs) (i : Fin q) (hik : (i : ℕ) < k) :
    bSolveWGo M x u l r i = bSolveWGo M x u k r i := by
  induction l with
  | zero => omega
  | succ l ih =>
    rcases Nat.eq_or_lt_of_le hkl with h | h
    · rw [h]
    · have hkl2 : k ≤ l := Nat.lt_succ_iff.mp h
      by_cases hq : l < q
      · have hne : i ≠ (⟨l, hq⟩ : Fin q) := by
          intro hcontra
          have hil : (i : ℕ) = l := by rw [hcontra]
          omega
        simp only [bSolveWGo, dif_pos hq, Matrix.add_apply, Matrix.of_apply, if_neg hne,
          add_zero]
        exact ih hkl2
      · simp only [bSolveWGo, dif_neg hq]
        exact ih hkl2

/-- Closed form of row `i` of the completed feedback matrix: the value
written at step `i + 1`, with the `D11` term read against the partially
built `w` (and absent for row 0, as in lines 140–142). -/
lemma bSolveW_apply {bs n m q : ℕ} (M : FwdMats n m q)
    (x : Matrix (Fin bs) (Fin n) ℝ) (u : Fin m → ℝ) (r : Fin bs) (i : Fin q) :
    bSolveW M x u r i
      = act (M.C1 i ⬝ᵥ x r
          + (if (i : ℕ) = 0 then 0 else M.D11 i ⬝ᵥ bSolveWGo M x u (i : ℕ) r)
          + M.bv i + M.D12 i ⬝ᵥ u) := by
  have h1 : bSolveW M x u r i = bSolveWGo M x u ((i : ℕ) + 1) r i :=
    bSolveWGo_stable M x u ((i : ℕ) + 1) q i.isLt r i (Nat.lt_succ_self _)
  rw [h1]
  have heta : (⟨(i : ℕ), i.isLt⟩ : Fin q) = i := Fin.eta i i.isLt
  simp only [bSolveWGo, dif_pos i.isLt, Matrix.add_apply, Matrix.of_apply, heta,
    eq_self_iff_true, if_true]
  rw [bSolveWGo_apply_of_le M x u (i : ℕ) r i (le_refl _), zero_add]

/-- Under strict lower-triangularity of `D11`, the `D11` term of row `i`
may be read against the completed `w`: rows `j < i` are already final and
rows `j ≥ i` carry zero coefficients. -/
lemma bSolveW_dot_eq {bs n m q : ℕ} (M : FwdMats n m q)
    (x : Matrix (Fin bs) (Fin n) ℝ) (u : Fin m → ℝ)
    (hD : ∀ i j : Fin q, i ≤ j → M.D11 i j = 0) (r : Fin bs) (i : Fin q) :
    M.D11 i ⬝ᵥ bSolveWGo M x u (i : ℕ) r = M.D11 i ⬝ᵥ bSolveW M x u r := by
  unfold Matrix.dotProduct
  refine Finset.sum_congr rfl fun j _ => ?_
  by_cases hj : (j : ℕ) < (i : ℕ)
  · rw [show bSolveW M x u r j = bSolveWGo M x u (i : ℕ) r j from
      bSolveWGo_stable M x u (i : ℕ) q i.isLt.le r j hj]
  · have hij : i ≤ j := by
      rw [Fin.le_def]
      omega
    rw [hD i j hij, zero_mul, zero_mul]

/-- Under strict lower-triangularity, the `D11` term of row `i` is the
truncated sum over rows `j < i`. -/
lemma bSolveW_dot_eq_truncated {bs n m q : ℕ} (M : FwdMats n m q)
    (x : Matrix (Fin bs) (Fin n) ℝ) (u : Fin m → ℝ)
    (hD : ∀ i j : Fin q, i ≤ j → M.D11 i j = 0) (r : Fin bs) (i : Fin q) :
    M.D11 i ⬝ᵥ bSolveW M x u r
      = ∑ j : Fin q, if (j : ℕ) < (i : ℕ) then M.D11 i j * bSolveW M x u r j else 0 := by
  unfold Matrix.dotProduct
  refine Finset.sum_congr rfl fun j _ => ?_
  by_cases hj : (j : ℕ) < (i : ℕ)
  · rw [if_pos hj]
  · have hij : i ≤ j := by
      rw [Fin.le_def]
      omega
    rw [if_neg hj, hD i j hij, zero_mul]

/-- **C3.** For every batch of states `x`, every input `u`, and matrices
with `D11` strictly lower triangular, the feedback matrix `w` computed by
the row-by-row loop of `forward` satisfies the implicit equation
`w = tanh(C1 x + D11 w + D12 u + bv)` exactly, row by row, and row `i`
equals `tanh(C1[i,:] @ x + Σ_{j<i} D11[i,j] * w_j + D12[i,:] @ u + bv[i])`:
a finite forward substitution with no iteration and no convergence failure
mode. -/
theorem forward_feedback_exact {bs n m q : ℕ} (M : FwdMats n m q)
    (x : Matrix (Fin bs) (Fin n) ℝ) (u : Fin m → ℝ)
    (hD : ∀ i j : Fin q, i ≤ j → M.D11 i j = 0) (r : Fin bs) (i : Fin q) :
    bSolveW M x u r i
        = act (M.C1 i ⬝ᵥ x r + M.D11 i ⬝ᵥ bSolveW M x u r
            + M.D12 i ⬝ᵥ u + M.bv i) ∧
    bSolveW M x u r i
        = act (M.C1 i ⬝ᵥ x r
            + (∑ j : Fin q, if (j : ℕ) < (i : ℕ) then M.D11 i j * bSolveW M x u r j else 0)
            + M.D12 i ⬝ᵥ u + M.bv i) := by
  have hditch : (if (i : ℕ) = 0 then 0 else M.D11 i ⬝ᵥ bSolveWGo M x u (i : ℕ) r)
      = M.D11 i ⬝ᵥ bSolveW M x u r := by
    by_cases h0 : (i : ℕ) = 0
    · rw [if_pos h0]
      have hrow : ∀ j : Fin q, M.D11 i j = 0 := fun j =>
        hD i j (by rw [Fin.le_def]; omega)
      unfold Matrix.dotProduct
      symm
      refine Finset.sum_eq_zero fun j _ => ?_
      rw [hrow j, zero_mul]
    · rw [if_neg h0]
      exact bSolveW_dot_eq M x u hD r i
  constructor
  · rw [bSolveW_apply, hditch]
    congr 1
    ring
  · rw [bSolveW_apply, hditch, bSolveW_dot_eq_truncated M x u hD r i]
    congr 1
    ring

/-- Witness for C3 at the all-zero matrices, `q = 2`, row 1. -/
theorem forward_feedback_exact_witness :
    (∀ i j : Fin 2, i ≤ j → fwdZero.D11 i j = 0) ∧
    (bSolveW fwdZero (0 : Matrix (Fin 1) (Fin 1) ℝ) 0 0 1
        = act (fwdZero.C1 1 ⬝ᵥ (0 : Matrix (Fin 1) (Fin 1) ℝ) 0
            + fwdZero.D11 1 ⬝ᵥ bSolveW fwdZero (0 : Matrix (Fin 1) (Fin 1) ℝ) 0 0
            + fwdZero.D12 1 ⬝ᵥ 0 + fwdZero.bv 1) ∧
    bSolveW fwdZero (0 : Matrix (Fin 1) (Fin 1) ℝ) 0 0 1
        = act (fwdZero.C1 1 ⬝ᵥ (0 : Matrix (Fin 1) (Fin 1) ℝ) 0
            + (∑ j : Fin 2, if (j : ℕ) < ((1 : Fin 2) : ℕ)
                then fwdZero.D11 1 j * bSolveW fwdZero (0 : Matrix (Fin 1) (Fin 1) ℝ) 0 0 j
                else 0)
            + fwdZero.D12 1 ⬝ᵥ 0 + fwdZero.bv 1)) :=
  ⟨fun i j h => rfl,
    forward_feedback_exact fwdZero (0 : Matrix (Fin 1) (Fin 1) ℝ) 0 (fun i j h => rfl) 0 1⟩

/-- **C9.** The implicit solve is deterministic: two runs of the feedback
loop on equal states, equal inputs, and equal matrices produce equal
feedback matrices (the loop is a pure function of its inputs, with no
other source of variation). -/
theorem forward_feedback_deterministic {bs n m q : ℕ} (M₁ M₂ : FwdMats n m q)
    (x₁ x₂ : Matrix (Fin bs) (Fin n) ℝ) (u₁ u₂ : Fin m → ℝ)
    (hM : M₁ = M₂) (hx : x₁ = x₂) (hu : u₁ = u₂) :
    bSolveW M₁ x₁ u₁ = bSolveW M₂ x₂ u₂ := by
  subst hM
  subst hx
  subst hu
  rfl

/-- Witness for C9 at the all-zero matrices and states. -/
theorem forward_feedback_deterministic_witness :
    fwdZero = fwdZero ∧ (0 : Matrix (Fin 1) (Fin 1) ℝ) = 0 ∧ (0 : Fin 1 → ℝ) = 0 ∧
    bSolveW fwdZero (0 : Matrix (Fin 1) (Fin 1) ℝ) 0
      = bSolveW fwdZero (0 : Matrix (Fin 1) (Fin 1) ℝ) 0 :=
  ⟨rfl, rfl, rfl,
    forward_feedback_deterministic fwdZero fwdZero
      (0 : Matrix (Fin 1) (Fin 1) ℝ) (0 : Matrix (Fin 1) (Fin 1) ℝ) 0 0 rfl rfl rfl⟩

/-! ### The hardcoded zero input of `forward` -/

/-- On `fwdInputTest` (whose `C1`, `D11`, `D12`, `bv` are all zero) the
feedback loop returns `tanh 0 = 0` whatever the state and input. -/
lemma bSolveW_fwdInputTest (x : Matrix (Fin 1) (Fin 1) ℝ) (u : Fin 1 → ℝ) :
    bSolveW fwdInputTest x u = 0 := by
  have h01 : (0 : ℕ) < 1 := Nat.zero_lt_one
  ext r j
  show bSolveWGo fwdInputTest x u 1 r j = 0
  simp [bSolveWGo, dif_pos h01, fwdInputTest, act, Matrix.dotProduct]

/-- **C5 (evaluation of the defect).** The forward pass hardcodes the
external input to zero (line 133, marked `# TODO: Remove this IMMEDIATELY!`),
so the returned derivative cannot depend on any supplied input: on
`fwdInputTest` (where `B2 = I` and everything else vanishes) the code
returns derivative `0` at state `0`, while the spec's step formula
`xdot = A@x + B1@w + bx + B2@u` at the supplied input `u = 1` returns `1`. -/
theorem forward_ignores_input_eval :
    cforward fwdInputTest (0 : Matrix (Fin 1) (Fin 1) ℝ) 0 0 = 0 ∧
    specContinuousStep fwdInputTest (fun _ => 0) (fun _ => 1) 0 = 1 := by
  constructor
  · have hw := bSolveW_fwdInputTest (0 : Matrix (Fin 1) (Fin 1) ℝ) 0
    simp only [cforward, Matrix.add_apply, Matrix.of_apply, Flinear, Matrix.mul_apply, hw]
    simp [fwdInputTest, Matrix.dotProduct]
  · have hw := bSolveW_fwdInputTest (Matrix.of fun _ : Fin 1 => (fun _ : Fin 1 => (0:ℝ)))
      (fun _ => 1)
    simp only [specContinuousStep, Pi.add_apply, hw]
    simp [fwdInputTest, Matrix.mulVec, Matrix.dotProduct]

/-! ### Batch rows evolve independently -/

/-- Each step of the feedback loop treats batch rows independently. -/
lemma bSolveWGo_row {bs n m q : ℕ} (M : FwdMats n m q) (x : Matrix (Fin bs) (Fin n) ℝ)
    (u : Fin m → ℝ) (k : ℕ) (r : Fin bs) :
    bSolveWGo M x u k r = bSolveWGo M (rowOf x r) u k 0 := by
  induction k with
  | zero => rfl
  | succ k ih =>
    by_cases hq : k < q
    · funext j
      simp only [bSolveWGo, dif_pos hq, Matrix.add_apply, Matrix.of_apply]
      rw [ih]
      rfl
    · simp only [bSolveWGo, dif_neg hq]
      exact ih

/-- The derivative function of `forward` treats batch rows independently. -/
lemma cforward_row {bs n m q : ℕ} (M : FwdMats n m q) (x : Matrix (Fin bs) (Fin n) ℝ)
    (r : Fin bs) : cforward M x r = cforward M (rowOf x r) 0 := by
  funext j
  have hw : bSolveW M x (0 : Fin m → ℝ) r = bSolveW M (rowOf x r) (0 : Fin m → ℝ) 0 :=
    bSolveWGo_row M x 0 q r
  simp only [cforward, Matrix.add_apply, Matrix.of_apply, Flinear, Matrix.mul_apply]
  rw [hw]
  rfl

/-- The simulated trajectory treats batch rows independently. -/
lemma simTraj_row {bs n m q : ℕ} (M : FwdMats n m q) (h : ℝ)
    (x0 : Matrix (Fin bs) (Fin n) ℝ) (r : Fin bs) (k : ℕ) :
    simTraj M h x0 k r = simTraj M h (rowOf x0 r) k 0 := by
  induction k with
  | zero => rfl
  | succ k ih =>
    have hrow : rowOf (simTraj M h x0 k) r = simTraj M h (rowOf x0 r) k := by
      ext s j2
      rw [show (s : Fin 1) = 0 from Subsingleton.elim s 0]
      exact congrFun ih j2
    funext j
    simp only [simTraj, Matrix.add_apply, Matrix.smul_apply]
    rw [congrFun ih j, congrFun (cforward_row M (simTraj M h x0 k) r) j, hrow]

/-- Before the line-212 reshape, the integrated trajectory and its output
samples do decompose per batch row: row `r` of every state and output
sample equals the batch-size-1 evaluation from initial condition `r`.  The
per-row property claimed of `forward_trajectory` is therefore broken only
by the reshape. -/
lemma preReshape_trajectory_batch_rows {bs n m q p : ℕ} (M : FwdMats n m q)
    (C2 : Matrix (Fin p) (Fin n) ℝ) (h : ℝ) (x0 : Matrix (Fin bs) (Fin n) ℝ)
    (k : ℕ) (r : Fin bs) (j : Fin n) (o : Fin p) :
    simTraj M h x0 k r j = simTraj M h (rowOf x0 r) k 0 j ∧
    outputMap C2 (simTraj M h x0 k) r o = outputMap C2 (simTraj M h (rowOf x0 r) k) 0 o := by
  have hrow := simTraj_row M h x0 r k
  refine ⟨congrFun hrow j, ?_⟩
  unfold outputMap Flinear
  simp only [Matrix.mul_apply]
  exact Finset.sum_congr rfl fun l _ => by rw [congrFun hrow l]

/-- On the all-zero matrices the derivative function returns zero for any
batch of states. -/
lemma cforward_fwdZero {bs : ℕ} (x : Matrix (Fin bs) (Fin 1) ℝ) :
    cforward fwdZero x = 0 := by
  ext r j
  simp [cforward, Flinear, fwdZero, Matrix.add_apply, Matrix.mul_apply, Matrix.of_apply,
    Matrix.dotProduct]

/-- With zero dynamics, the simulated trajectory is constant. -/
lemma simTraj_fwdZero {bs : ℕ} (x0 : Matrix (Fin bs) (Fin 1) ℝ) (k : ℕ) :
    simTraj fwdZero 1 x0 k = x0 := by
  induction k with
  | zero => rfl
  | succ k ih => simp [simTraj, ih, cforward_fwdZero]

/-- **C7 (evaluation of the defect).** With zero dynamics (`fwdZero`),
identity output map, horizon 2, and the four distinct initial states
`0, 1, 2, 3`, the batch-size-4 `forward_trajectory` returns, in row 0 at
time index 1, the value `1` — the time-0 output of batch element 1 — while
the batch-size-1 evaluation from initial condition 0 returns `0` there.
The line-212 reshape reinterprets the time-major `(T, b, 1, p)` buffer
with batch-major strides, so for batch size 4 the returned rows are not
the four batch-1 trajectories. -/
theorem forward_trajectory_reshape_scrambles :
    forwardTrajOut fwdZero (1 : Matrix (Fin 1) (Fin 1) ℝ) 1 x0four 2 0 1 0 = 1 ∧
    forwardTrajOut fwdZero (1 : Matrix (Fin 1) (Fin 1) ℝ) 1 (rowOf x0four 0) 2 0 1 0 = 0 := by
  constructor
  · show reshapeTraj
        (fun k r j => outputMap (1 : Matrix (Fin 1) (Fin 1) ℝ)
          (simTraj fwdZero 1 x0four (k : ℕ)) r j) 0 1 0 = 1
    unfold reshapeTraj
    simp only [simTraj_fwdZero]
    norm_num [outputMap, Flinear, Matrix.mul_apply, Fin.sum_univ_one, x0four,
      Matrix.one_apply]
  · show reshapeTraj
        (fun k r j => outputMap (1 : Matrix (Fin 1) (Fin 1) ℝ)
          (simTraj fwdZero 1 (rowOf x0four 0) (k : ℕ)) r j) 0 1 0 = 0
    unfold reshapeTraj
    simp only [simTraj_fwdZero]
    norm_num [outputMap, Flinear, Matrix.mul_apply, Fin.sum_univ_one, rowOf, x0four,
      Matrix.one_apply]

/-! ### Minimum-norm least-squares initialization -/

/-- The dot product of a real vector with itself is nonnegative. -/
lemma dotProduct_self_nonneg {k : ℕ} (v : Fin k → ℝ) : 0 ≤ v ⬝ᵥ v :=
  Finset.sum_nonneg fun i _ => mul_self_nonneg (v i)

/-- **C6.** For every target output `y`, `set_y_init` computes an initial
state solving `C2 @ x0 = y`, and (for full-row-rank `C2`, in particular in
the underdetermined regime `n > p`) the computed `x0` has the smallest
Euclidean norm among all solutions: for every other solution `z`,
`‖x0‖² ≤ ‖z‖²`. -/
theorem set_y_init_minNorm {p n : ℕ} (C2 : Matrix (Fin p) (Fin n) ℝ) (y : Fin p → ℝ)
    (hC : IsUnit (C2 * C2ᵀ).det) (z : Fin n → ℝ) (hz : C2 *ᵥ z = y) :
    C2 *ᵥ lstsqMinNorm C2 y = y ∧
    lstsqMinNorm C2 y ⬝ᵥ lstsqMinNorm C2 y ≤ z ⬝ᵥ z := by
  have hsol : C2 *ᵥ lstsqMinNorm C2 y = y := by
    unfold lstsqMinNorm
    rw [Matrix.mulVec_mulVec, Matrix.mulVec_mulVec, Matrix.mul_nonsing_inv _ hC,
      Matrix.one_mulVec]
  refine ⟨hsol, ?_⟩
  set x0 := lstsqMinNorm C2 y with hx0
  have hx0' : x0 = ((C2 * C2ᵀ)⁻¹ *ᵥ y) ᵥ* C2 := by
    rw [hx0]
    unfold lstsqMinNorm
    rw [Matrix.mulVec_transpose]
  have hkey : ∀ v : Fin n → ℝ, x0 ⬝ᵥ v = ((C2 * C2ᵀ)⁻¹ *ᵥ y) ⬝ᵥ (C2 *ᵥ v) := by
    intro v
    conv_lhs => rw [hx0']
    rw [← Matrix.dotProduct_mulVec]
  have horth : x0 ⬝ᵥ (z - x0) = 0 := by
    rw [hkey, Matrix.mulVec_sub, hz, hsol, sub_self, Matrix.dotProduct_zero]
  have hzdecomp : z = x0 + (z - x0) := by abel
  have hzz : z ⬝ᵥ z = x0 ⬝ᵥ x0 + 2 * (x0 ⬝ᵥ (z - x0)) + (z - x0) ⬝ᵥ (z - x0) := by
    conv_lhs => rw [hzdecomp]
    rw [Matrix.add_dotProduct, Matrix.dotProduct_add, Matrix.dotProduct_add,
      Matrix.dotProduct_comm (z - x0) x0]
    ring
  have hdd := dotProduct_self_nonneg (z - x0)
  rw [hzz, horth]
  linarith

/-- Witness for C6 at `C2 = [1 0]` (so `n = 2 > 1 = p`), `y = [2]`, and
the alternate solution `z = [2, 3]`. -/
theorem set_y_init_minNorm_witness :
    IsUnit ((!![(1:ℝ), 0] * !![(1:ℝ), 0]ᵀ).det) ∧
    (!![(1:ℝ), 0] *ᵥ ![2, 3] = ![2]) ∧
    (!![(1:ℝ), 0] *ᵥ lstsqMinNorm !![(1:ℝ), 0] ![2] = ![2] ∧
      lstsqMinNorm !![(1:ℝ), 0] ![2] ⬝ᵥ lstsqMinNorm !![(1:ℝ), 0] ![2]
        ≤ ![(2:ℝ), 3] ⬝ᵥ ![(2:ℝ), 3]) := by
  have hdet : IsUnit ((!![(1:ℝ), 0] * !![(1:ℝ), 0]ᵀ).det) := by
    have h1 : ((!![(1:ℝ), 0] * !![(1:ℝ), 0]ᵀ).det) = 1 := by
      rw [Matrix.det_fin_one]
      simp [Matrix.mul_apply, Fin.sum_univ_two]
    rw [h1]
    exact isUnit_one
  have hz : (!![(1:ℝ), 0] *ᵥ ![2, 3]) = ![2] := by
    funext i
    fin_cases i
    simp [Matrix.mulVec, Matrix.dotProduct, Fin.sum_univ_two]
  exact ⟨hdet, hz, set_y_init_minNorm !![(1:ℝ), 0] ![2] hdet ![2, 3] hz⟩

/-! ### Frame of `update_model_param` -/

/-- **C10.** As a state transformer, `update_model_param` writes only the
derived non-trainable matrices `P`, `A`, `D11`, `C1`, `B1`: every trainable
parameter, the internal state `x`, and every configuration field are left
unchanged, and the five written fields receive exactly the projector's
output. -/
theorem updateModelParamState_frame {dimIn dimOut dimX dimV bs : ℕ}
    (s : CRENState dimIn dimOut dimX dimV bs) :
    (updateModelParamState s).Pstar = s.Pstar ∧
    (updateModelParamState s).Chi = s.Chi ∧
    (updateModelParamState s).X = s.X ∧
    (updateModelParamState s).Y1 = s.Y1 ∧
    (updateModelParamState s).B2 = s.B2 ∧
    (updateModelParamState s).D12 = s.D12 ∧
    (updateModelParamState s).C2 = s.C2 ∧
    (updateModelParamState s).D21 = s.D21 ∧
    (updateModelParamState s).D22 = s.D22 ∧
    (updateModelParamState s).bx = s.bx ∧
    (updateModelParamState s).bv = s.bv ∧
    (updateModelParamState s).b_y = s.b_y ∧
    (updateModelParamState s).x = s.x ∧
    (updateModelParamState s).epsilon = s.epsilon ∧
    (updateModelParamState s).contraction_rate_lb = s.contraction_rate_lb ∧
    (updateModelParamState s).weight_init_std = s.weight_init_std ∧
    (updateModelParamState s).linear_output = s.linear_output ∧
    (updateModelParamState s).add_bias = s.add_bias ∧
    (updateModelParamState s).horizon = s.horizon ∧
    (updateModelParamState s).P
      = (updateModelParam ⟨s.Pstar, s.Chi, s.X, s.Y1⟩ s.epsilon s.contraction_rate_lb).P ∧
    (updateModelParamState s).A
      = (updateModelParam ⟨s.Pstar, s.Chi, s.X, s.Y1⟩ s.epsilon s.contraction_rate_lb).A ∧
    (updateModelParamState s).D11
      = (updateModelParam ⟨s.Pstar, s.Chi, s.X, s.Y1⟩ s.epsilon s.contraction_rate_lb).D11 ∧
    (updateModelParamState s).C1
      = (updateModelParam ⟨s.Pstar, s.Chi, s.X, s.Y1⟩ s.epsilon s.contraction_rate_lb).C1 ∧
    (updateModelParamState s).B1
      = (updateModelParam ⟨s.Pstar, s.Chi, s.X, s.Y1⟩ s.epsilon s.contraction_rate_lb).B1 :=
  ⟨rfl, rfl, rfl, rfl, rfl, rfl, rfl, rfl, rfl, rfl, rfl, rfl, rfl, rfl, rfl, rfl, rfl,
    rfl, rfl, rfl, rfl, rfl, rfl, rfl⟩

end

end CREN
